import Mathlib

/-!
# Verification of list2base58.py

A shallow embedding of the single source file `src/list2base58.py` of the
repository, together with proofs of the claims of the specification.

The program converts a list of 32 or 64 byte-range integers (a Solana
secret key) into its base58 textual encoding.  The embedding models:

* the base58 encoder used by `list_to_base58` (the `base58` PyPI package
  function `b58encode`, which is the standard Bitcoin-alphabet algorithm
  the spec names), plus the matching standard decoder used to state the
  round-trip law;
* `list_to_base58` itself, over a `PyVal` type of dynamically typed
  Python values, since `load_list` can hand it non-integer values;
* `load_list`, with the filesystem abstracted as a partial map from path
  strings to file contents;
* `main`, as a function from (filesystem, argument) to
  (exit code, stdout, stderr).
-/

namespace ListToBase58

/-! ## Positional numeral machinery

Little-endian digit lists in an arbitrary base `b ≥ 2`, used for base58
(encoding), base 256 (byte sequences) and base 10 (decimal parsing). -/

/-- Value of a little-endian digit list in base `b`. -/
def leToNat (b : Nat) (l : List Nat) : Nat :=
  l.foldr (fun d acc => d + b * acc) 0

/-- Value of a big-endian digit list in base `b` (the accumulator loop
all the Python numeral code uses: `acc = acc * b + digit`). -/
def beToNat (b : Nat) (l : List Nat) : Nat :=
  l.foldl (fun acc d => acc * b + d) 0

/-- Fuel-driven worker for `natToLE`; `fuel ≥ n` suffices because the
argument shrinks at every step. -/
def natToLEAux (b : Nat) : Nat → Nat → List Nat
  | 0, _ => []
  | fuel + 1, n =>
      if n = 0 ∨ b ≤ 1 then [] else n % b :: natToLEAux b fuel (n / b)

/-- Little-endian digits of `n` in base `b` (empty for `n = 0`), the
repeated-`divmod` loop of the Python encoders. -/
def natToLE (b n : Nat) : List Nat := natToLEAux b n n

/-! ## Character and token helpers -/

/-- Whitespace in the sense of Python `str.strip` / `str.split`. -/
def pyIsSpace (c : Char) : Bool :=
  c == ' ' || c == '\t' || c == '\n' || c == '\r' ||
    c == '\x0b' || c == '\x0c'

/-- Python `str.strip()`: drop whitespace from both ends. -/
def trimWS (cs : List Char) : List Char :=
  ((cs.dropWhile pyIsSpace).reverse.dropWhile pyIsSpace).reverse

/-- Python `str.split(sep)` for a one-character separator: split at every
occurrence, keeping empty pieces. -/
def splitOnChar (sep : Char) : List Char → List (List Char)
  | [] => [[]]
  | c :: rest =>
      if c = sep then [] :: splitOnChar sep rest
      else
        match splitOnChar sep rest with
        | [] => [[c]]
        | t :: ts => (c :: t) :: ts

/-- Worker for `splitWS`: `acc` is the current token, reversed. -/
def splitWSAux : List Char → List Char → List (List Char)
  | [], acc => if acc.isEmpty then [] else [acc.reverse]
  | c :: rest, acc =>
      if pyIsSpace c then
        if acc.isEmpty then splitWSAux rest []
        else acc.reverse :: splitWSAux rest []
      else splitWSAux rest (c :: acc)

/-- Python `str.split()` with no argument: split on runs of whitespace,
producing no empty tokens. -/
def splitWS (cs : List Char) : List (List Char) := splitWSAux cs []

/-- Python `text.replace(",", " ")`. -/
def replCommaSpace (cs : List Char) : List Char :=
  cs.map (fun c => if c = ',' then ' ' else c)

/-! ## Decimal parsing and rendering

Models of Python `int(x)` and of the number grammar shared by
`json.loads` and `ast.literal_eval` on the numeric fragment this program
consumes.  Rendering functions are the spec-side inverse used to state
the universally quantified loader claims. -/

/-- Value of a decimal digit character. -/
def digitVal (c : Char) : Nat := c.toNat - 48

/-- Parse a nonempty all-digit run as a natural number. -/
def parseDigits (cs : List Char) : Option Nat :=
  if cs.isEmpty then none
  else if cs.all Char.isDigit then some (beToNat 10 (cs.map digitVal))
  else none

/-- Parse an optionally signed decimal integer (the body of Python
`int(x)` after stripping; a leading `+` or `-` is accepted). -/
def parseSignedInt (cs : List Char) : Option Int :=
  match cs with
  | [] => none
  | c :: rest =>
      if c = '-' then (parseDigits rest).map (fun n => -(Int.ofNat n))
      else if c = '+' then (parseDigits rest).map Int.ofNat
      else (parseDigits (c :: rest)).map Int.ofNat

/-- Python `int(x)` on a token: strip whitespace, then parse a signed
decimal integer; `ValueError` otherwise (message modelled without the
quote characters CPython puts around the token). -/
def pyIntParse (cs : List Char) : Except String Int :=
  match parseSignedInt (trimWS cs) with
  | some i => .ok i
  | none => .error ("invalid literal for int() with base 10: " ++
      String.mk cs)

/-! ## Python numbers and values -/

/-- A Python number: an `int` or a `float`.  A float is carried as the
exact decimal fraction `mant / 10 ^ pow10`; the float literals this
program can meet (finite decimal fractions such as `1.5`) are exactly
representable in binary floating point, and the only operations applied
to them are order comparisons against 0 and 255, which are exact and
coincide with the rational comparisons below. -/
inductive PyNum where
  | int (i : Int)
  | float (mant : Int) (pow10 : Nat)
deriving DecidableEq

/-- Negation of a Python number (for a leading minus sign). -/
def PyNum.neg : PyNum → PyNum
  | .int i => .int (-i)
  | .float m p => .float (-m) p

/-- A Python value as produced by the loaders of this program: a number
or a flat list of numbers (spec: a JSON array of numbers,
comma-separated numbers, or whitespace-separated numbers). -/
inductive PyVal where
  | num (n : PyNum)
  | list (elems : List PyNum)
deriving DecidableEq

/-- Parse an unsigned number: either a digit run (an `int`) or
`digits.digits` (a `float`). -/
def parseUnsignedNum (cs : List Char) : Option PyNum :=
  match cs.dropWhile Char.isDigit with
  | [] => (parseDigits cs).map (fun n => .int (Int.ofNat n))
  | '.' :: frac => do
      let a ← parseDigits (cs.takeWhile Char.isDigit)
      let b ← parseDigits frac
      some (.float (Int.ofNat (a * 10 ^ frac.length + b)) frac.length)
  | _ => none

/-- Parse one number token with surrounding whitespace and an optional
leading minus sign. -/
def parseNumTok (cs : List Char) : Option PyNum :=
  match trimWS cs with
  | [] => none
  | c :: rest =>
      if c = '-' then (parseUnsignedNum rest).map PyNum.neg
      else parseUnsignedNum (c :: rest)

/-- Parse the comma-separated tokens of a bracketed list. -/
def parseNumToks : List (List Char) → Option (List PyNum)
  | [] => some []
  | t :: ts => do
      let n ← parseNumTok t
      let ns ← parseNumToks ts
      some (n :: ns)

/-- Parse a bracketed list of numbers `[n, n, ...]` (the input is
already stripped). -/
def parseNumList (cs : List Char) : Option (List PyNum) :=
  match cs with
  | [] => none
  | c :: rest =>
      if c = '[' then
        if rest.getLast? = some ']' then
          if (trimWS rest.dropLast).isEmpty then some []
          else parseNumToks (splitOnChar ',' rest.dropLast)
        else none
      else none

/-- Modelled from the spec: `json.loads`, which is standard-library code
not in `src/`.  The spec commits only to the numeric fragment (".json
(array of numbers)"; "JSON: a top-level array of integers"), so the
model parses a bracketed array of numbers, or a bare number, and fails
otherwise; JSON features outside that fragment (strings, objects,
nesting, exponents) are not modelled. -/
def jsonParse (text : List Char) : Except String PyVal :=
  match parseNumList (trimWS text) with
  | some xs => .ok (.list xs)
  | none =>
      match parseNumTok text with
      | some n => .ok (.num n)
      | none => .error "Expecting value: line 1 column 1 (char 0)"

/-- Modelled from the spec: `ast.literal_eval`, standard-library code
not in `src/`.  Python documents it as evaluating any literal
expression, not only lists (the spec design notes call its grammar
"broader than JSON").  On the numeric fragment this program consumes it
accepts a bracketed list of numbers, or a bare number literal, and
fails otherwise; literals outside that fragment (strings, tuples,
dicts, nesting) are not modelled. -/
def literalEval (text : List Char) : Except String PyVal :=
  match parseNumList (trimWS text) with
  | some xs => .ok (.list xs)
  | none =>
      match parseNumTok text with
      | some n => .ok (.num n)
      | none => .error "malformed node or string"

/-! ## Path suffix -/

/-- Index of the last `.` in a name, if any. -/
def lastDotIdx : List Char → Option Nat
  | [] => none
  | c :: rest =>
      match lastDotIdx rest with
      | some i => some (i + 1)
      | none => if c = '.' then some 0 else none

/-- Model of `pathlib.PurePath.suffix`: the extension of the final path
component, with a leading dot; empty when the final component has no
dot in an interior position. -/
def pathSuffix (source : String) : String :=
  let name := (splitOnChar '/' source.data).getLastD []
  match lastDotIdx name with
  | some i =>
      if 0 < i ∧ i < name.length - 1 then String.mk (name.drop i) else ""
  | none => ""

/-! ## The loader -/

/-- Python `[int(x) for x in toks]`: convert tokens in order, raising at
the first bad one. -/
def intTokList : List (List Char) → Except String (List Int)
  | [] => .ok []
  | t :: ts => do
      let i ← pyIntParse t
      let is ← intTokList ts
      .ok (i :: is)

/-- The existing-file half of `load_list`: dispatch the stripped file
contents on the path suffix; `.json` goes to `json.loads`, `.csv` splits
on commas, keeps the tokens with nonempty strip and applies `int`, and
any other suffix replaces commas by spaces, splits on whitespace and
applies `int`. -/
def load_from_file (suffix : String) (text : List Char) :
    Except String PyVal :=
  if suffix = ".json" then jsonParse text
  else if suffix = ".csv" then
    (intTokList ((splitOnChar ',' text).filter
        (fun x => !(trimWS x).isEmpty))).map
      (fun is => .list (is.map PyNum.int))
  else
    (intTokList (splitWS (replCommaSpace text))).map
      (fun is => .list (is.map PyNum.int))

/-- Model of `load_list`.  The filesystem is a partial map `fs` from
path strings to file contents; `fs source = none` models
`not path.exists()`.  An existing file is read and stripped, then
dispatched on the path suffix; a non-path source goes to
`ast.literal_eval`. -/
def load_list (fs : String → Option String) (source : String) :
    Except String PyVal :=
  match fs source with
  | some raw => load_from_file (pathSuffix source) (trimWS raw.data)
  | none => literalEval source.data

/-! ## Base58 encoding and decoding

`list_to_base58` calls `base58.b58encode(bytes(int_list)).decode()` from
the `base58` PyPI package.  That package is not part of the repository;
it implements the standard algorithm the spec names ("standard base58
encoding (Bitcoin/IPFS alphabet, no checksum, no version byte)").
`b58encodeBytes` below is that algorithm, and `b58decodeChars` is the
matching standard decoder, used to state the round-trip claim. -/

def B58_ALPHABET : List Char :=
  "123456789ABCDEFGHJKLMNPQRSTUVWXYZabcdefghijkmnopqrstuvwxyz".data

/-- The alphabet character of a base58 digit. -/
def b58Char (d : Nat) : Char := B58_ALPHABET.getD d '?'

/-- Position of a character in a character list, if present. -/
def charIdx (c : Char) : List Char → Option Nat
  | [] => none
  | a :: rest => if a = c then some 0 else (charIdx c rest).map (· + 1)

/-- The base58 digit of an alphabet character (`none` off the
alphabet). -/
def b58Digit (c : Char) : Option Nat := charIdx c B58_ALPHABET

/-- Decode every character of a candidate base58 numeral, failing on the
first character outside the alphabet. -/
def b58DigitList : List Char → Option (List Nat)
  | [] => some []
  | c :: cs => do
      let d ← b58Digit c
      let ds ← b58DigitList cs
      some (d :: ds)

/-- Standard base58 encoding of a byte sequence (`base58.b58encode`):
strip the leading zero bytes, read the rest as a big-endian base-256
numeral, write it as a big-endian base-58 numeral and prepend one
alphabet-zero character `'1'` per stripped byte. -/
def b58encodeBytes (v : List Nat) : List Char :=
  List.replicate (v.length - (v.dropWhile (· == 0)).length) '1' ++
    ((natToLE 58 (beToNat 256 (v.dropWhile (· == 0)))).reverse.map b58Char)

/-- Standard base58 decoding of a string (`base58.b58decode`): strip the
leading `'1'` characters, read the rest as a big-endian base-58 numeral,
convert it to big-endian bytes and prepend one zero byte per stripped
character.  Fails on characters outside the alphabet. -/
def b58decodeChars (s : List Char) : Except String (List Nat) :=
  match b58DigitList (s.drop (s.takeWhile (· == '1')).length) with
  | none => .error "Invalid base58 character"
  | some ds =>
      .ok (List.replicate (s.takeWhile (· == '1')).length 0 ++
        (natToLE 256 (beToNat 58 ds)).reverse)

def b58decode (s : String) : Except String (List Nat) := b58decodeChars s.data

/-! ## The encoder `list_to_base58` -/

/-- The test `not (0 <= n <= 255)` of `list_to_base58` on one
element. -/
def PyNum.outOfRange : PyNum → Bool
  | .int i => !(decide (0 ≤ i) && decide (i ≤ 255))
  | .float m p => !(decide (0 ≤ m) && decide (m ≤ 255 * 10 ^ p))

/-- One element of the Python `bytes(int_list)` conversion: accepts an
`int` in `range(0, 256)`; a `float` raises `TypeError` regardless of its
value (messages modelled without the CPython quote characters). -/
def pyByte : PyNum → Except String Nat
  | .int i => if 0 ≤ i ∧ i < 256 then .ok i.toNat
      else .error "bytes must be in range(0, 256)"
  | .float _ _ => .error "float object cannot be interpreted as an integer"

/-- Python `bytes(int_list)`: convert each element in order, raising at
the first bad one. -/
def pyBytes : List PyNum → Except String (List Nat)
  | [] => .ok []
  | x :: xs => do
      let b ← pyByte x
      let bs ← pyBytes xs
      .ok (b :: bs)

/-- The body of `list_to_base58` once `len` is known to apply: the two
validation `if`s, then `base58.b58encode(bytes(int_list)).decode()`. -/
def list_to_base58L (xs : List PyNum) : Except String String :=
  if xs.length ≠ 32 ∧ xs.length ≠ 64 then
    .error ("Expected 32 or 64 integers, got " ++ toString xs.length)
  else if xs.any PyNum.outOfRange then
    .error "All list items must be in 0-255 range"
  else
    (pyBytes xs).map (fun bytes => String.mk (b58encodeBytes bytes))

/-- Model of `list_to_base58` on a dynamically typed argument.  Python
`len` is defined on lists and raises `TypeError` on numbers. -/
def list_to_base58P (v : PyVal) : Except String String :=
  match v with
  | .num (.int _) => .error "object of type int has no len()"
  | .num (.float _ _) => .error "object of type float has no len()"
  | .list xs => list_to_base58L xs

/-- Model of `list_to_base58` on an actual integer list, the typed case
the Encoder contract of the spec describes. -/
def list_to_base58 (int_list : List Int) : Except String String :=
  list_to_base58P (.list (int_list.map PyNum.int))

/-! ## The command-line surface -/

/-- The try-block of `main`: load, then encode. -/
def pipeline (fs : String → Option String) (source : String) :
    Except String String :=
  (load_list fs source).bind list_to_base58P

/-- Model of `main`: returns (exit code, stdout, stderr).  On success it
prints the base58 string and a newline to stdout and exits 0; every
exception is caught, printed as one `Error: <message>` line on stderr,
and the process exits 1. -/
def main_run (fs : String → Option String) (source : String) :
    Nat × String × String :=
  match pipeline fs source with
  | .ok b58 => (0, b58 ++ "\n", "")
  | .error e => (1, "", "Error: " ++ e ++ "\n")

/-! ## Spec-side rendering of integer lists

Deterministic renderings of integer lists into the textual input formats,
used to quantify the loader claims over all integer lists. -/

/-- Decimal digits of a natural number. -/
def renderNat (n : Nat) : List Char :=
  if n = 0 then ['0']
  else (natToLE 10 n).reverse.map (fun d => Char.ofNat (48 + d))

/-- Decimal rendering of an integer. -/
def renderInt (i : Int) : List Char :=
  if i < 0 then '-' :: renderNat i.natAbs else renderNat i.toNat

/-- Join tokens with a one-character separator. -/
def joinSep (sep : Char) : List (List Char) → List Char
  | [] => []
  | [t] => t
  | t :: ts => t ++ sep :: joinSep sep ts

/-- A JSON-array / list-literal rendering `[a,b,c]` of an integer
list. -/
def renderIntList (ns : List Int) : String :=
  String.mk ('[' :: (joinSep ',' (ns.map renderInt) ++ [']']))

/-- One comma-separated CSV cell: either a blank (whitespace-only) cell,
or an integer with optional leading whitespace. -/
inductive CsvCell where
  | blank (ws : List Char)
  | val (pad : List Char) (n : Int)

/-- Text of one CSV cell. -/
def CsvCell.text : CsvCell → List Char
  | .blank ws => ws
  | .val pad n => pad ++ renderInt n

/-- The integer a CSV cell carries, if any. -/
def CsvCell.int? : CsvCell → Option Int
  | .blank _ => none
  | .val _ n => some n

/-- Well-formedness of one CSV cell: the whitespace fields hold only
whitespace. -/
def CsvCell.wf : CsvCell → Bool
  | .blank ws => ws.all pyIsSpace
  | .val pad _ => pad.all pyIsSpace

/-- A CSV line: cells joined with commas. -/
def csvText (cells : List CsvCell) : List Char :=
  joinSep ',' (cells.map CsvCell.text)

/-- Interleave rendered integers with separator strings (`seps` supplies
the separator after each integer but the last). -/
def mixedText (ns : List Int) (seps : List (List Char)) : List Char :=
  match ns, seps with
  | [], _ => []
  | [n], _ => renderInt n
  | n :: rest, s :: ss => renderInt n ++ s ++ mixedText rest ss
  | n :: rest, [] => renderInt n ++ mixedText rest []

/-- Decidable equality for results. -/
instance {α β : Type} [DecidableEq α] [DecidableEq β] :
    DecidableEq (Except α β) := fun x y =>
  match x, y with
  | .ok a, .ok b =>
      if h : a = b then .isTrue (by rw [h])
      else .isFalse (fun he => h (Except.ok.inj he))
  | .error a, .error b =>
      if h : a = b then .isTrue (by rw [h])
      else .isFalse (fun he => h (Except.error.inj he))
  | .ok _, .error _ => .isFalse (fun he => Except.noConfusion he)
  | .error _, .ok _ => .isFalse (fun he => Except.noConfusion he)

/-! # Theorems -/

/-! ## Numeral lemmas -/

theorem leToNat_nil (b : Nat) : leToNat b [] = 0 := rfl

theorem leToNat_cons (b d : Nat) (l : List Nat) :
    leToNat b (d :: l) = d + b * leToNat b l := rfl

theorem beToNat_nil (b : Nat) : beToNat b [] = 0 := rfl

theorem beToNat_append_singleton (b : Nat) (l : List Nat) (d : Nat) :
    beToNat b (l ++ [d]) = beToNat b l * b + d := by
  simp [beToNat, List.foldl_append]

/-- The big-endian value of a reversed list is the little-endian
value. -/
theorem beToNat_reverse (b : Nat) (l : List Nat) :
    beToNat b l.reverse = leToNat b l := by
  induction l with
  | nil => rfl
  | cons d t ih =>
      rw [List.reverse_cons, beToNat_append_singleton, ih, leToNat_cons]
      ring

/-- The fuel of `natToLEAux` is irrelevant as long as it dominates the
argument. -/
theorem natToLEAux_fuel (b : Nat) : ∀ n f₁ f₂, n ≤ f₁ → n ≤ f₂ →
    natToLEAux b f₁ n = natToLEAux b f₂ n := by
  intro n
  induction n using Nat.strong_induction_on with
  | _ n ih =>
      intro f₁ f₂ h₁ h₂
      match f₁, f₂ with
      | 0, 0 => rfl
      | 0, g + 1 =>
          have hn : n = 0 := by omega
          subst hn
          simp [natToLEAux]
      | g + 1, 0 =>
          have hn : n = 0 := by omega
          subst hn
          simp [natToLEAux]
      | g₁ + 1, g₂ + 1 =>
          show (if n = 0 ∨ b ≤ 1 then [] else
              n % b :: natToLEAux b g₁ (n / b)) =
            (if n = 0 ∨ b ≤ 1 then [] else
              n % b :: natToLEAux b g₂ (n / b))
          by_cases hc : n = 0 ∨ b ≤ 1
          · rw [if_pos hc, if_pos hc]
          · rw [if_neg hc, if_neg hc]
            push_neg at hc
            have hdiv : n / b < n :=
              Nat.div_lt_self (by omega) (by omega)
            rw [ih (n / b) hdiv g₁ g₂ (by omega) (by omega)]

theorem natToLE_zero (b : Nat) : natToLE b 0 = [] := rfl

theorem natToLE_of_pos {b n : Nat} (hb : 2 ≤ b) (hn : n ≠ 0) :
    natToLE b n = n % b :: natToLE b (n / b) := by
  unfold natToLE
  match n, hn with
  | m + 1, _ =>
      show (if m + 1 = 0 ∨ b ≤ 1 then [] else
          (m + 1) % b :: natToLEAux b m ((m + 1) / b)) = _
      rw [if_neg (by omega)]
      have hdiv : (m + 1) / b ≤ m := by
        have := Nat.div_lt_self (show 0 < m + 1 by omega)
          (show 1 < b by omega)
        omega
      rw [natToLEAux_fuel b ((m + 1) / b) m ((m + 1) / b) hdiv
        (Nat.le_refl _)]

/-- The `getLast?` of a cons onto a nonempty list ignores the head. -/
theorem getLast?_cons_ne_nil {α : Type} (a : α) {l : List α}
    (h : l ≠ []) : (a :: l).getLast? = l.getLast? := by
  cases l with
  | nil => exact absurd rfl h
  | cons b t => rw [List.getLast?_cons_cons]

/-- Converting to little-endian digits and reading back is the
identity. -/
theorem leToNat_natToLE {b : Nat} (hb : 2 ≤ b) (n : Nat) :
    leToNat b (natToLE b n) = n := by
  induction n using Nat.strong_induction_on with
  | _ n ih =>
      by_cases hn : n = 0
      · subst hn; rw [natToLE_zero, leToNat_nil]
      · rw [natToLE_of_pos hb hn, leToNat_cons,
          ih (n / b) (Nat.div_lt_self (Nat.pos_of_ne_zero hn) (by omega))]
        exact Nat.mod_add_div n b

/-- Every digit produced by `natToLE` is below the base. -/
theorem natToLE_lt {b : Nat} (hb : 2 ≤ b) (n : Nat) :
    ∀ d ∈ natToLE b n, d < b := by
  induction n using Nat.strong_induction_on with
  | _ n ih =>
      by_cases hn : n = 0
      · subst hn; rw [natToLE_zero]; intro d hd; cases hd
      · rw [natToLE_of_pos hb hn]
        intro d hd
        rcases List.mem_cons.mp hd with h | h
        · subst h; exact Nat.mod_lt _ (by omega)
        · exact ih (n / b)
            (Nat.div_lt_self (Nat.pos_of_ne_zero hn) (by omega)) d h

/-- The top (last) digit of a nonzero number is nonzero. -/
theorem natToLE_getLast?_ne_zero {b n : Nat} (hb : 2 ≤ b) (hn : n ≠ 0) :
    (natToLE b n).getLast? ≠ some 0 := by
  induction n using Nat.strong_induction_on with
  | _ n ih =>
      rw [natToLE_of_pos hb hn]
      by_cases hq : n / b = 0
      · rw [hq, natToLE_zero]
        simp only [List.getLast?_singleton, ne_eq, Option.some.injEq]
        have hlt : n < b := by
          rcases Nat.lt_or_ge n b with h | h
          · exact h
          · exact absurd (Nat.div_eq_zero_iff (by omega) |>.mp hq)
              (by omega)
        rw [Nat.mod_eq_of_lt hlt]
        exact hn
      · have htail := ih (n / b)
          (Nat.div_lt_self (Nat.pos_of_ne_zero hn) (by omega)) hq
        have hne : natToLE b (n / b) ≠ [] := by
          rw [natToLE_of_pos hb hq]; exact List.cons_ne_nil _ _
        rwa [getLast?_cons_ne_nil _ hne]

/-- A digit list with a nonzero top digit has a positive value. -/
theorem leToNat_pos {b : Nat} (hb : 2 ≤ b) (l : List Nat) (hne : l ≠ [])
    (hlast : l.getLast? ≠ some 0) : 0 < leToNat b l := by
  induction l with
  | nil => exact absurd rfl hne
  | cons d t ih =>
      rw [leToNat_cons]
      by_cases ht : t = []
      · subst ht
        simp only [List.getLast?_singleton, ne_eq, Option.some.injEq]
          at hlast
        rw [leToNat_nil]
        omega
      · have hpos := ih ht (by rwa [getLast?_cons_ne_nil _ ht] at hlast)
        have := Nat.mul_pos (show 0 < b by omega) hpos
        omega

/-- Reading back a valid digit list (digits below the base, nonzero top
digit) and re-converting is the identity. -/
theorem natToLE_leToNat {b : Nat} (hb : 2 ≤ b) (l : List Nat)
    (hdig : ∀ d ∈ l, d < b) (hlast : l.getLast? ≠ some 0) :
    natToLE b (leToNat b l) = l := by
  induction l with
  | nil => rw [leToNat_nil, natToLE_zero]
  | cons d t ih =>
      rw [leToNat_cons]
      have hd : d < b := hdig d (List.mem_cons_self d t)
      by_cases ht : t = []
      · subst ht
        rw [leToNat_nil, Nat.mul_zero, Nat.add_zero]
        simp only [List.getLast?_singleton, ne_eq, Option.some.injEq]
          at hlast
        rw [natToLE_of_pos hb hlast, Nat.mod_eq_of_lt hd,
          Nat.div_eq_of_lt hd, natToLE_zero]
      · have hlast' : t.getLast? ≠ some 0 := by
          rwa [getLast?_cons_ne_nil _ ht] at hlast
        have hv : 0 < leToNat b t := leToNat_pos hb t ht hlast'
        have hnz : d + b * leToNat b t ≠ 0 := by
          have := Nat.mul_pos (show 0 < b by omega) hv
          omega
        rw [natToLE_of_pos hb hnz, Nat.add_mul_mod_self_left,
          Nat.mod_eq_of_lt hd, Nat.add_mul_div_left _ _ (by omega : 0 < b),
          Nat.div_eq_of_lt hd, Nat.zero_add,
          ih (fun x hx => hdig x (List.mem_cons_of_mem _ hx)) hlast']

/-! ## List helper lemmas -/

theorem takeWhile_append_of_all {α : Type} (p : α → Bool) {a : List α}
    (b : List α) (ha : ∀ x ∈ a, p x = true) :
    (a ++ b).takeWhile p = a ++ b.takeWhile p := by
  induction a with
  | nil => rfl
  | cons x t ih =>
      rw [List.cons_append, List.takeWhile_cons,
        ha x (List.mem_cons_self x t), if_pos rfl, List.cons_append,
        ih (fun y hy => ha y (List.mem_cons_of_mem _ hy))]

theorem takeWhile_nil_of_head {α : Type} (p : α → Bool) (l : List α)
    (h : ∀ x, l.head? = some x → p x = false) :
    l.takeWhile p = [] := by
  cases l with
  | nil => rfl
  | cons x t =>
      rw [List.takeWhile_cons, h x rfl]
      simp

theorem drop_length_append {α : Type} (a b : List α) :
    (a ++ b).drop a.length = b := by
  induction a with
  | nil => rfl
  | cons x t ih => simp [ih]

theorem dropWhile_head_false {α : Type} (p : α → Bool) (l : List α) :
    ∀ x, (l.dropWhile p).head? = some x → p x = false := by
  induction l with
  | nil => intro x hx; cases hx
  | cons y t ih =>
      intro x hx
      rw [List.dropWhile_cons] at hx
      by_cases hy : p y = true
      · rw [if_pos hy] at hx; exact ih x hx
      · rw [if_neg hy] at hx
        cases hx
        exact Bool.eq_false_iff.mpr hy

theorem mem_dropWhile {α : Type} (p : α → Bool) (l : List α) :
    ∀ x ∈ l.dropWhile p, x ∈ l := by
  induction l with
  | nil => intro x hx; cases hx
  | cons y t ih =>
      intro x hx
      rw [List.dropWhile_cons] at hx
      by_cases hy : p y = true
      · rw [if_pos hy] at hx
        exact List.mem_cons_of_mem _ (ih x hx)
      · rw [if_neg hy] at hx
        exact hx

/-- Splitting a list at its leading block: `takeWhile` of `(· == a)` is
a replicate, and the list is that replicate followed by the
`dropWhile`. -/
theorem eq_replicate_append_dropWhile {α : Type} [DecidableEq α] (a : α)
    (l : List α) :
    l = List.replicate (l.takeWhile (· == a)).length a ++
        l.dropWhile (· == a) := by
  have hrep : l.takeWhile (· == a) =
      List.replicate (l.takeWhile (· == a)).length a := by
    apply List.eq_replicate_of_mem
    intro x hx
    have := List.mem_takeWhile_imp hx
    exact eq_of_beq this
  conv_lhs => rw [← List.takeWhile_append_dropWhile (p := (· == a)) (l := l)]
  rw [← hrep]

/-! ## Base58 lemmas -/

/-- Every base58 digit below 58 maps to an alphabet character that
decodes back to itself. -/
theorem b58Digit_b58Char :
    ∀ d : Fin 58, b58Digit (b58Char d.val) = some d.val := by
  decide

/-- Only digit 0 maps to the alphabet-zero character `'1'`. -/
theorem b58Char_ne_one :
    ∀ d : Fin 58, d.val ≠ 0 → (b58Char d.val == '1') = false := by
  decide

theorem b58DigitList_map (ds : List Nat) (h : ∀ d ∈ ds, d < 58) :
    b58DigitList (ds.map b58Char) = some ds := by
  induction ds with
  | nil => rfl
  | cons d t ih =>
      rw [List.map_cons]
      show (do
        let x ← b58Digit (b58Char d)
        let xs ← b58DigitList (t.map b58Char)
        some (x :: xs)) = some (d :: t)
      rw [b58Digit_b58Char ⟨d, h d (List.mem_cons_self d t)⟩,
        ih (fun x hx => h x (List.mem_cons_of_mem _ hx))]
      rfl

/-- Core of the round trip: decoding the encoder output shape, for a
byte list `s` that has already had its leading zeros (`k` of them)
stripped. -/
theorem b58decode_encode_core (k : Nat) (s : List Nat)
    (hhead : ∀ x, s.head? = some x → x ≠ 0) (hs : ∀ x ∈ s, x < 256) :
    b58decodeChars (List.replicate k '1' ++
      ((natToLE 58 (beToNat 256 s)).reverse.map b58Char)) =
    Except.ok (List.replicate k 0 ++ s) := by
  have hdig58 : ∀ d ∈ (natToLE 58 (beToNat 256 s)).reverse, d < 58 := by
    intro d hd
    exact natToLE_lt (by omega) _ d (List.mem_reverse.mp hd)
  have hTW : ((natToLE 58 (beToNat 256 s)).reverse.map b58Char).takeWhile
      (· == '1') = [] := by
    cases hrev : (natToLE 58 (beToNat 256 s)).reverse with
    | nil => rw [List.map_nil]; rfl
    | cons d t =>
        have hd58 : d < 58 := hdig58 d (hrev ▸ List.mem_cons_self d t)
        have hd0 : d ≠ 0 := by
          by_cases hN : beToNat 256 s = 0
          · rw [hN, natToLE_zero] at hrev
            cases hrev
          · have := natToLE_getLast?_ne_zero (b := 58) (by omega) hN
            rw [← List.head?_reverse, hrev] at this
            simp only [List.head?_cons, ne_eq, Option.some.injEq] at this
            exact this
        rw [List.map_cons, List.takeWhile_cons,
          b58Char_ne_one ⟨d, hd58⟩ hd0]
        simp
  have henc_tw : ((List.replicate k '1' ++
      ((natToLE 58 (beToNat 256 s)).reverse.map b58Char)).takeWhile
        (· == '1')) = List.replicate k '1' := by
    rw [takeWhile_append_of_all _ _
      (fun x hx => by rw [List.eq_of_mem_replicate hx]; rfl), hTW,
      List.append_nil]
  have hdrop : ((List.replicate k '1' ++
      ((natToLE 58 (beToNat 256 s)).reverse.map b58Char)).drop k) =
      (natToLE 58 (beToNat 256 s)).reverse.map b58Char := by
    have := drop_length_append (List.replicate k '1')
      ((natToLE 58 (beToNat 256 s)).reverse.map b58Char)
    rwa [List.length_replicate] at this
  have h58 : beToNat 58 ((natToLE 58 (beToNat 256 s)).reverse) =
      beToNat 256 s := by
    rw [beToNat_reverse]
    exact leToNat_natToLE (by omega) _
  have h256 : (natToLE 256 (beToNat 256 s)).reverse = s := by
    have h1 : beToNat 256 s = leToNat 256 s.reverse := by
      conv_lhs => rw [← List.reverse_reverse s]
      rw [beToNat_reverse]
    have hlast : s.reverse.getLast? ≠ some 0 := by
      rw [List.getLast?_reverse]
      intro hx
      exact hhead 0 hx rfl
    rw [h1, natToLE_leToNat (by omega) _
      (fun d hd => hs d (List.mem_reverse.mp hd)) hlast,
      List.reverse_reverse]
  unfold b58decodeChars
  rw [henc_tw, List.length_replicate, hdrop, b58DigitList_map _ hdig58]
  simp only [h58, h256]

/-- Round trip: standard base58 decoding inverts the encoder on every
byte sequence. -/
theorem b58_roundtrip (v : List Nat) (hv : ∀ x ∈ v, x < 256) :
    b58decodeChars (b58encodeBytes v) = Except.ok v := by
  have hsplit := eq_replicate_append_dropWhile 0 v
  have hl : (v.takeWhile (· == 0)).length + (v.dropWhile (· == 0)).length
      = v.length := by
    rw [← List.length_append, List.takeWhile_append_dropWhile]
  have hhead : ∀ x, (v.dropWhile (· == 0)).head? = some x → x ≠ 0 := by
    intro x hx h0
    have := dropWhile_head_false (· == 0) v x hx
    rw [h0] at this
    simp at this
  unfold b58encodeBytes
  rw [show v.length - (v.dropWhile (· == 0)).length =
        (v.takeWhile (· == 0)).length by omega,
    b58decode_encode_core _ _ hhead
      (fun x hx => hv x (mem_dropWhile _ _ x hx)),
    ← hsplit]

/-! ## Encoder lemmas -/

/-- Conversion by `bytes()` succeeds elementwise on in-range
integers. -/
theorem pyBytes_ints (l : List Int) (h : ∀ x ∈ l, 0 ≤ x ∧ x ≤ 255) :
    pyBytes (l.map PyNum.int) = Except.ok (l.map Int.toNat) := by
  induction l with
  | nil => rfl
  | cons x t ih =>
      have hx := h x (List.mem_cons_self x t)
      rw [List.map_cons, List.map_cons]
      show (do
        let b ← pyByte (PyNum.int x)
        let bs ← pyBytes (t.map PyNum.int)
        Except.ok (b :: bs)) = _
      rw [ih (fun y hy => h y (List.mem_cons_of_mem _ hy))]
      simp only [pyByte, if_pos (show 0 ≤ x ∧ x < 256 by omega)]
      rfl

/-- On a valid input, `list_to_base58` returns the base58 encoding of
the byte sequence. -/
theorem list_to_base58_ok (l : List Int)
    (hlen : l.length = 32 ∨ l.length = 64)
    (hrange : ∀ x ∈ l, 0 ≤ x ∧ x ≤ 255) :
    list_to_base58 l =
      Except.ok (String.mk (b58encodeBytes (l.map Int.toNat))) := by
  show list_to_base58L (l.map PyNum.int) = _
  unfold list_to_base58L
  rw [if_neg (by rw [List.length_map]; omega)]
  have hany : (l.map PyNum.int).any PyNum.outOfRange = false := by
    apply List.any_eq_false.mpr
    intro x hx
    obtain ⟨y, hy, rfl⟩ := List.mem_map.mp hx
    have := hrange y hy
    simp only [PyNum.outOfRange, Bool.not_eq_true]
    rw [decide_eq_true this.1, decide_eq_true this.2]
    rfl
  rw [if_neg (by rw [hany]; simp), pyBytes_ints l hrange]
  rfl

/-- The length-mismatch message is never the range message. -/
theorem length_msg_ne_range_msg (s : String) :
    ("Expected 32 or 64 integers, got " ++ s) ≠
      "All list items must be in 0-255 range" := by
  intro h
  have hd := congrArg String.data h
  rw [String.data_append] at hd
  simp at hd

/-! ## Claims about the Encoder (C1 - C4) -/

/-- C1: for every integer sequence of length 32 or 64 with every element
in [0,255], `list_to_base58` succeeds, and applying standard base58
decoding to the returned string yields exactly the original byte
sequence (round-trip law). -/
theorem c1_roundtrip (l : List Int)
    (hlen : l.length = 32 ∨ l.length = 64)
    (hrange : ∀ x ∈ l, 0 ≤ x ∧ x ≤ 255) :
    ∃ s : String, list_to_base58 l = Except.ok s ∧
      ∃ bs : List Nat, b58decode s = Except.ok bs ∧
        bs.map Int.ofNat = l := by
  refine ⟨String.mk (b58encodeBytes (l.map Int.toNat)),
    list_to_base58_ok l hlen hrange, l.map Int.toNat, ?_, ?_⟩
  · show b58decodeChars (b58encodeBytes (l.map Int.toNat)) = _
    apply b58_roundtrip
    intro x hx
    obtain ⟨y, hy, rfl⟩ := List.mem_map.mp hx
    have := hrange y hy
    omega
  · rw [List.map_map]
    have hpt : ∀ x ∈ l, (Int.ofNat ∘ Int.toNat) x = id x := by
      intro x hx
      exact Int.toNat_of_nonneg (hrange x hx).1
    rw [List.map_congr_left hpt, List.map_id]

theorem c1_roundtrip_witness :
    ((List.replicate 32 (0 : Int)).length = 32 ∨
      (List.replicate 32 (0 : Int)).length = 64) ∧
    (∀ x ∈ List.replicate 32 (0 : Int), 0 ≤ x ∧ x ≤ 255) ∧
    (∃ s : String, list_to_base58 (List.replicate 32 (0 : Int)) =
        Except.ok s ∧
      ∃ bs : List Nat, b58decode s = Except.ok bs ∧
        bs.map Int.ofNat = List.replicate 32 (0 : Int)) :=
  ⟨by decide, by decide,
    c1_roundtrip (List.replicate 32 (0 : Int)) (by decide) (by decide)⟩

/-- C2: for every integer sequence whose length is neither 32 nor 64,
`list_to_base58` fails with the length-mismatch error naming the actual
count, and never with the range-violation error, regardless of element
values. -/
theorem c2_length_error (l : List Int)
    (h32 : l.length ≠ 32) (h64 : l.length ≠ 64) :
    list_to_base58 l =
      Except.error ("Expected 32 or 64 integers, got " ++
        toString l.length) ∧
    ("Expected 32 or 64 integers, got " ++ toString l.length) ≠
      "All list items must be in 0-255 range" := by
  constructor
  · show list_to_base58L (l.map PyNum.int) = _
    unfold list_to_base58L
    rw [if_pos (by rw [List.length_map]; exact ⟨h32, h64⟩),
      List.length_map]
  · exact length_msg_ne_range_msg _

theorem c2_length_error_witness :
    (([1, 2, 3] : List Int).length ≠ 32 ∧
      ([1, 2, 3] : List Int).length ≠ 64) ∧
    (list_to_base58 [1, 2, 3] =
      Except.error ("Expected 32 or 64 integers, got " ++
        toString ([1, 2, 3] : List Int).length) ∧
    ("Expected 32 or 64 integers, got " ++
        toString ([1, 2, 3] : List Int).length) ≠
      "All list items must be in 0-255 range") :=
  ⟨by decide, c2_length_error [1, 2, 3] (by decide) (by decide)⟩

/-- C3: for every integer sequence of length exactly 32 or 64 containing
at least one element outside [0,255], `list_to_base58` fails with the
range-violation error message. -/
theorem c3_range_error (l : List Int)
    (hlen : l.length = 32 ∨ l.length = 64)
    (x : Int) (hx : x ∈ l) (hout : ¬(0 ≤ x ∧ x ≤ 255)) :
    list_to_base58 l =
      Except.error "All list items must be in 0-255 range" := by
  show list_to_base58L (l.map PyNum.int) = _
  unfold list_to_base58L
  rw [if_neg (by rw [List.length_map]; omega)]
  have hany : (l.map PyNum.int).any PyNum.outOfRange = true := by
    apply List.any_eq_true.mpr
    refine ⟨PyNum.int x, List.mem_map_of_mem _ hx, ?_⟩
    simp only [PyNum.outOfRange, Bool.not_eq_true', Bool.and_eq_false_iff]
    rcases Decidable.not_and_iff_or_not.mp hout with h | h
    · exact Or.inl (decide_eq_false h)
    · exact Or.inr (decide_eq_false h)
  rw [if_pos hany]

theorem c3_range_error_witness :
    ((256 :: List.replicate 31 (0 : Int)).length = 32 ∨
      (256 :: List.replicate 31 (0 : Int)).length = 64) ∧
    ((256 : Int) ∈ 256 :: List.replicate 31 (0 : Int)) ∧
    ¬((0 : Int) ≤ 256 ∧ (256 : Int) ≤ 255) ∧
    list_to_base58 (256 :: List.replicate 31 (0 : Int)) =
      Except.error "All list items must be in 0-255 range" :=
  ⟨by decide, by decide, by decide,
    c3_range_error _ (by decide) 256 (by decide) (by decide)⟩

/-- C4: on the input of exactly 32 zeros, `list_to_base58` succeeds and
returns the reference base58 encoding of 32 zero bytes: the fixed string
of 32 repetitions of the alphabet-zero character `'1'`, exactly the
reference encoder output. -/
theorem c4_zero_key :
    list_to_base58 (List.replicate 32 0) =
      Except.ok "11111111111111111111111111111111" ∧
    "11111111111111111111111111111111" =
      String.mk (List.replicate 32 (b58Char 0)) ∧
    b58encodeBytes (List.replicate 32 0) =
      List.replicate 32 (b58Char 0) := by
  refine ⟨by decide, by decide, by decide⟩

/-! ## Loader lemmas: characters and trimming -/

/-- Facts about the ten decimal digit characters. -/
theorem digit_char_facts : ∀ d : Fin 10,
    Char.isDigit (Char.ofNat (48 + d.val)) = true ∧
    digitVal (Char.ofNat (48 + d.val)) = d.val ∧
    pyIsSpace (Char.ofNat (48 + d.val)) = false ∧
    Char.ofNat (48 + d.val) ≠ ',' ∧
    Char.ofNat (48 + d.val) ≠ '-' ∧
    Char.ofNat (48 + d.val) ≠ '+' := by
  decide

theorem space_ne_comma {c : Char} (h : pyIsSpace c = true) : c ≠ ',' := by
  intro hc
  rw [hc] at h
  exact absurd h (by decide)

theorem mem_of_head? {α : Type} {l : List α} {x : α}
    (h : l.head? = some x) : x ∈ l := by
  cases l with
  | nil => cases h
  | cons a t =>
      injection h with h
      subst h
      exact List.mem_cons_self a t

theorem mem_of_getLast? {α : Type} {l : List α} {x : α}
    (h : l.getLast? = some x) : x ∈ l := by
  rw [← List.head?_reverse] at h
  exact List.mem_reverse.mp (mem_of_head? h)

theorem isEmpty_false_of_head? {α : Type} {l : List α} {x : α}
    (h : l.head? = some x) : l.isEmpty = false := by
  cases l with
  | nil => cases h
  | cons a t => rfl

theorem dropWhile_append_of_all {α : Type} (p : α → Bool) {a : List α}
    (b : List α) (ha : ∀ x ∈ a, p x = true) :
    (a ++ b).dropWhile p = b.dropWhile p := by
  induction a with
  | nil => rfl
  | cons x t ih =>
      rw [List.cons_append, List.dropWhile_cons,
        if_pos (by rw [ha x (List.mem_cons_self x t)]),
        ih (fun y hy => ha y (List.mem_cons_of_mem _ hy))]

theorem dropWhile_eq_self_of_head {α : Type} (p : α → Bool) (l : List α)
    (h : ∀ x, l.head? = some x → p x = false) : l.dropWhile p = l := by
  cases l with
  | nil => rfl
  | cons x t =>
      rw [List.dropWhile_cons, h x rfl]
      simp

theorem dropWhile_nil_of_all {α : Type} (p : α → Bool) (l : List α)
    (h : ∀ x ∈ l, p x = true) : l.dropWhile p = [] := by
  have := dropWhile_append_of_all p (a := l) [] h
  rwa [List.append_nil] at this

theorem takeWhile_eq_self_of_all {α : Type} (p : α → Bool) (l : List α)
    (h : ∀ x ∈ l, p x = true) : l.takeWhile p = l := by
  have := takeWhile_append_of_all p (a := l) [] h
  rwa [List.append_nil, List.takeWhile_nil, List.append_nil] at this

theorem trimWS_eq_self {cs : List Char}
    (h1 : ∀ c, cs.head? = some c → pyIsSpace c = false)
    (h2 : ∀ c, cs.getLast? = some c → pyIsSpace c = false) :
    trimWS cs = cs := by
  unfold trimWS
  rw [dropWhile_eq_self_of_head _ _ h1,
    dropWhile_eq_self_of_head _ _
      (fun c hc => h2 c (by rwa [List.head?_reverse] at hc)),
    List.reverse_reverse]

theorem trimWS_append_ws {pad cs : List Char}
    (hp : ∀ c ∈ pad, pyIsSpace c = true) :
    trimWS (pad ++ cs) = trimWS cs := by
  unfold trimWS
  rw [dropWhile_append_of_all _ _ hp]

theorem trimWS_all_space {cs : List Char}
    (h : ∀ c ∈ cs, pyIsSpace c = true) : trimWS cs = [] := by
  unfold trimWS
  rw [dropWhile_nil_of_all _ _ h]
  rfl

/-! ## Rendering and reparsing integers -/

theorem renderNat_ne_nil (n : Nat) : renderNat n ≠ [] := by
  unfold renderNat
  by_cases h : n = 0
  · rw [if_pos h]; exact List.cons_ne_nil _ _
  · rw [if_neg h]
    intro hmap
    rw [List.map_eq_nil_iff, List.reverse_eq_nil_iff,
      natToLE_of_pos (by omega) h] at hmap
    exact List.cons_ne_nil _ _ hmap

theorem renderNat_mem (n : Nat) :
    ∀ c ∈ renderNat n, ∃ d : Fin 10, c = Char.ofNat (48 + d.val) := by
  intro c hc
  unfold renderNat at hc
  by_cases h : n = 0
  · rw [if_pos h] at hc
    rw [List.mem_singleton] at hc
    subst hc
    exact ⟨0, by decide⟩
  · rw [if_neg h] at hc
    obtain ⟨d, hd, rfl⟩ := List.mem_map.mp hc
    have hd10 : d < 10 := natToLE_lt (by omega) n d (List.mem_reverse.mp hd)
    exact ⟨⟨d, hd10⟩, rfl⟩

theorem renderNat_parse (n : Nat) : parseDigits (renderNat n) = some n := by
  by_cases h : n = 0
  · subst h; decide
  · have hne := renderNat_ne_nil n
    have hmem := renderNat_mem n
    have hEmp : (renderNat n).isEmpty = false := by
      cases hr : renderNat n with
      | nil => exact absurd hr hne
      | cons c t => rfl
    unfold parseDigits
    rw [if_neg (by rw [hEmp]; simp)]
    have hall : (renderNat n).all Char.isDigit = true := by
      rw [List.all_eq_true]
      intro c hc
      obtain ⟨d, rfl⟩ := hmem c hc
      exact (digit_char_facts d).1
    rw [if_pos hall]
    congr 1
    unfold renderNat
    rw [if_neg h, List.map_map]
    have hpt : ∀ d ∈ (natToLE 10 n).reverse,
        (digitVal ∘ fun d => Char.ofNat (48 + d)) d = id d := by
      intro d hd
      have hd10 : d < 10 := natToLE_lt (by omega) n d (List.mem_reverse.mp hd)
      exact (digit_char_facts ⟨d, hd10⟩).2.1
    rw [List.map_congr_left hpt, List.map_id, beToNat_reverse]
    exact leToNat_natToLE (by omega) n

theorem renderInt_ne_nil (i : Int) : renderInt i ≠ [] := by
  unfold renderInt
  by_cases h : i < 0
  · rw [if_pos h]; exact List.cons_ne_nil _ _
  · rw [if_neg h]; exact renderNat_ne_nil _

theorem renderInt_mem (i : Int) :
    ∀ c ∈ renderInt i,
      c = '-' ∨ ∃ d : Fin 10, c = Char.ofNat (48 + d.val) := by
  intro c hc
  unfold renderInt at hc
  by_cases h : i < 0
  · rw [if_pos h] at hc
    rcases List.mem_cons.mp hc with rfl | hc
    · exact Or.inl rfl
    · exact Or.inr (renderNat_mem _ c hc)
  · rw [if_neg h] at hc
    exact Or.inr (renderNat_mem _ c hc)

theorem renderInt_not_space (i : Int) :
    ∀ c ∈ renderInt i, pyIsSpace c = false := by
  intro c hc
  rcases renderInt_mem i c hc with rfl | ⟨d, rfl⟩
  · decide
  · exact (digit_char_facts d).2.2.1

theorem renderInt_ne_comma (i : Int) : ∀ c ∈ renderInt i, c ≠ ',' := by
  intro c hc
  rcases renderInt_mem i c hc with rfl | ⟨d, rfl⟩
  · decide
  · exact (digit_char_facts d).2.2.2.1

theorem trimWS_renderInt (i : Int) : trimWS (renderInt i) = renderInt i :=
  trimWS_eq_self
    (fun c hc => renderInt_not_space i c (mem_of_head? hc))
    (fun c hc => renderInt_not_space i c (mem_of_getLast? hc))

theorem trimWS_pad_renderInt {pad : List Char}
    (hp : ∀ c ∈ pad, pyIsSpace c = true) (i : Int) :
    trimWS (pad ++ renderInt i) = renderInt i := by
  rw [trimWS_append_ws hp, trimWS_renderInt]

/-! ## Reduction helpers for the parser matches -/

theorem parseSignedInt_cons (c : Char) (rest : List Char) :
    parseSignedInt (c :: rest) =
      if c = '-' then (parseDigits rest).map (fun n => -(Int.ofNat n))
      else if c = '+' then (parseDigits rest).map Int.ofNat
      else (parseDigits (c :: rest)).map Int.ofNat := rfl

theorem parseUnsignedNum_of_all_digits (cs : List Char)
    (h : cs.dropWhile Char.isDigit = []) :
    parseUnsignedNum cs =
      (parseDigits cs).map (fun n => .int (Int.ofNat n)) := by
  unfold parseUnsignedNum
  rw [h]

theorem parseNumTok_eq {cs : List Char} {c : Char} {rest : List Char}
    (h : trimWS cs = c :: rest) :
    parseNumTok cs =
      if c = '-' then (parseUnsignedNum rest).map PyNum.neg
      else parseUnsignedNum (c :: rest) := by
  unfold parseNumTok
  rw [h]

theorem parseNumList_cons (c : Char) (rest : List Char) :
    parseNumList (c :: rest) =
      if c = '[' then
        if rest.getLast? = some ']' then
          if (trimWS rest.dropLast).isEmpty then some []
          else parseNumToks (splitOnChar ',' rest.dropLast)
        else none
      else none := rfl

theorem splitOnChar_cons (sep c : Char) (rest : List Char) :
    splitOnChar sep (c :: rest) =
      if c = sep then [] :: splitOnChar sep rest
      else
        match splitOnChar sep rest with
        | [] => [[c]]
        | t :: ts => (c :: t) :: ts := rfl

theorem splitWSAux_nil (acc : List Char) :
    splitWSAux [] acc = if acc.isEmpty then [] else [acc.reverse] := rfl

theorem splitWSAux_cons (c : Char) (rest acc : List Char) :
    splitWSAux (c :: rest) acc =
      if pyIsSpace c then
        if acc.isEmpty then splitWSAux rest []
        else acc.reverse :: splitWSAux rest []
      else splitWSAux rest (c :: acc) := rfl

/-! ## Parsing rendered integers -/

theorem renderNat_dropWhile_digits (n : Nat) :
    (renderNat n).dropWhile Char.isDigit = [] := by
  apply dropWhile_nil_of_all
  intro c hc
  obtain ⟨d, rfl⟩ := renderNat_mem n c hc
  exact (digit_char_facts d).1

theorem parseUnsignedNum_renderNat (n : Nat) :
    parseUnsignedNum (renderNat n) = some (.int (Int.ofNat n)) := by
  rw [parseUnsignedNum_of_all_digits _ (renderNat_dropWhile_digits n),
    renderNat_parse]
  rfl

theorem parseSignedInt_renderInt (i : Int) :
    parseSignedInt (renderInt i) = some i := by
  unfold renderInt
  by_cases h : i < 0
  · rw [if_pos h, parseSignedInt_cons, if_pos rfl, renderNat_parse]
    show some (-(Int.ofNat i.natAbs)) = some i
    congr 1
    rw [Int.ofNat_eq_coe]
    omega
  · rw [if_neg h]
    cases hr : renderNat i.toNat with
    | nil => exact absurd hr (renderNat_ne_nil _)
    | cons c t =>
        obtain ⟨d, rfl⟩ :=
          renderNat_mem i.toNat _ (hr ▸ List.mem_cons_self c t)
        rw [parseSignedInt_cons, if_neg (digit_char_facts d).2.2.2.2.1,
          if_neg (digit_char_facts d).2.2.2.2.2, ← hr, renderNat_parse]
        show some (Int.ofNat i.toNat) = some i
        congr 1
        rw [Int.ofNat_eq_coe]
        omega

theorem parseNumTok_renderInt (i : Int) :
    parseNumTok (renderInt i) = some (.int i) := by
  by_cases h : i < 0
  · have hr : renderInt i = '-' :: renderNat i.natAbs := by
      unfold renderInt
      rw [if_pos h]
    have htrim : trimWS (renderInt i) = '-' :: renderNat i.natAbs := by
      rw [trimWS_renderInt, hr]
    rw [parseNumTok_eq htrim, if_pos rfl, parseUnsignedNum_renderNat]
    show some (PyNum.int (-(Int.ofNat i.natAbs))) = _
    have hval : -(Int.ofNat i.natAbs) = i := by
      rw [Int.ofNat_eq_coe]
      omega
    rw [hval]
  · have hr : renderInt i = renderNat i.toNat := by
      unfold renderInt
      rw [if_neg h]
    cases hrn : renderNat i.toNat with
    | nil => exact absurd hrn (renderNat_ne_nil _)
    | cons c t =>
        obtain ⟨d, rfl⟩ :=
          renderNat_mem i.toNat _ (hrn ▸ List.mem_cons_self c t)
        have htrim : trimWS (renderInt i) =
            Char.ofNat (48 + d.val) :: t := by
          rw [trimWS_renderInt, hr, hrn]
        rw [parseNumTok_eq htrim, if_neg (digit_char_facts d).2.2.2.2.1,
          ← hrn, parseUnsignedNum_renderNat]
        have hval : Int.ofNat i.toNat = i := by
          rw [Int.ofNat_eq_coe]
          omega
        rw [hval]

theorem parseNumTok_pad_renderInt {pad : List Char}
    (hp : ∀ c ∈ pad, pyIsSpace c = true) (i : Int) :
    parseNumTok (pad ++ renderInt i) = some (.int i) := by
  have h1 : trimWS (pad ++ renderInt i) = trimWS (renderInt i) :=
    trimWS_append_ws hp
  have h2 : parseNumTok (pad ++ renderInt i) = parseNumTok (renderInt i) := by
    unfold parseNumTok
    rw [h1]
  rw [h2, parseNumTok_renderInt]

theorem pyIntParse_pad_renderInt {pad : List Char}
    (hp : ∀ c ∈ pad, pyIsSpace c = true) (i : Int) :
    pyIntParse (pad ++ renderInt i) = Except.ok i := by
  unfold pyIntParse
  rw [trimWS_pad_renderInt hp, parseSignedInt_renderInt]

theorem pyIntParse_renderInt (i : Int) :
    pyIntParse (renderInt i) = Except.ok i := by
  have := @pyIntParse_pad_renderInt []
    (by intro c hc; cases hc) i
  rwa [List.nil_append] at this

/-! ## Splitting and joining lemmas -/

theorem mixedText_nil (seps : List (List Char)) : mixedText [] seps = [] := by
  cases seps <;> rfl

theorem mixedText_single (n : Int) (seps : List (List Char)) :
    mixedText [n] seps = renderInt n := by
  cases seps <;> rfl

theorem mixedText_cons2_nil (n m : Int) (r : List Int) :
    mixedText (n :: m :: r) [] = renderInt n ++ mixedText (m :: r) [] := rfl

theorem mixedText_cons2 (n m : Int) (r : List Int) (s : List Char)
    (ss : List (List Char)) :
    mixedText (n :: m :: r) (s :: ss) =
      (renderInt n ++ s) ++ mixedText (m :: r) ss := rfl

theorem isEmpty_false_of_ne_nil {α : Type} {l : List α} (h : l ≠ []) :
    l.isEmpty = false := by
  cases l with
  | nil => exact absurd rfl h
  | cons a t => rfl

theorem splitOnChar_no_sep (sep : Char) (t : List Char)
    (h : ∀ c ∈ t, c ≠ sep) : splitOnChar sep t = [t] := by
  induction t with
  | nil => rfl
  | cons c rest ih =>
      rw [splitOnChar_cons, if_neg (h c (List.mem_cons_self c rest)),
        ih (fun x hx => h x (List.mem_cons_of_mem _ hx))]

theorem splitOnChar_token_append (sep : Char) (t z : List Char)
    (h : ∀ c ∈ t, c ≠ sep) :
    splitOnChar sep (t ++ sep :: z) = t :: splitOnChar sep z := by
  induction t with
  | nil =>
      rw [List.nil_append, splitOnChar_cons, if_pos rfl]
  | cons c rest ih =>
      rw [List.cons_append, splitOnChar_cons,
        if_neg (h c (List.mem_cons_self c rest)),
        ih (fun x hx => h x (List.mem_cons_of_mem _ hx))]

theorem joinSep_split (sep : Char) (toks : List (List Char))
    (hne : toks ≠ []) (h : ∀ t ∈ toks, ∀ c ∈ t, c ≠ sep) :
    splitOnChar sep (joinSep sep toks) = toks := by
  induction toks with
  | nil => exact absurd rfl hne
  | cons t ts ih =>
      cases ts with
      | nil =>
          exact splitOnChar_no_sep sep t (h t (List.mem_cons_self t []))
      | cons t2 ts2 =>
          show splitOnChar sep (t ++ sep :: joinSep sep (t2 :: ts2)) =
            t :: t2 :: ts2
          rw [splitOnChar_token_append sep t _
              (h t (List.mem_cons_self t _)),
            ih (List.cons_ne_nil t2 ts2)
              (fun x hx => h x (List.mem_cons_of_mem _ hx))]

theorem joinSep_head? (sep : Char) (t : List Char)
    (ts : List (List Char)) (ht : t ≠ []) :
    (joinSep sep (t :: ts)).head? = t.head? := by
  cases ts with
  | nil => rfl
  | cons t2 ts2 =>
      show (t ++ sep :: joinSep sep (t2 :: ts2)).head? = t.head?
      cases t with
      | nil => exact absurd rfl ht
      | cons c r => rfl

theorem joinSep_ne_nil (sep : Char) (t : List Char)
    (ts : List (List Char)) (ht : t ≠ []) : joinSep sep (t :: ts) ≠ [] := by
  intro hj
  have hh := joinSep_head? sep t ts ht
  rw [hj] at hh
  cases t with
  | nil => exact ht rfl
  | cons c r => exact Option.noConfusion hh

theorem joinSep_getLast?_mem (sep : Char) :
    ∀ (toks : List (List Char)), toks ≠ [] → (∀ x ∈ toks, x ≠ []) →
      ∃ tk ∈ toks, (joinSep sep toks).getLast? = tk.getLast? := by
  intro toks
  induction toks with
  | nil => intro h _; exact absurd rfl h
  | cons t ts ih =>
      intro _ hall
      cases ts with
      | nil => exact ⟨t, List.mem_cons_self t [], rfl⟩
      | cons t2 ts2 =>
          obtain ⟨tk, htk, heq⟩ := ih (List.cons_ne_nil t2 ts2)
            (fun x hx => hall x (List.mem_cons_of_mem _ hx))
          refine ⟨tk, List.mem_cons_of_mem _ htk, ?_⟩
          show (t ++ sep :: joinSep sep (t2 :: ts2)).getLast? = tk.getLast?
          rw [List.getLast?_append_of_ne_nil t (List.cons_ne_nil _ _),
            getLast?_cons_ne_nil _
              (joinSep_ne_nil sep t2 ts2
                (hall t2 (List.mem_cons_of_mem _ (List.mem_cons_self t2 ts2)))),
            heq]

/-! ## Lemmas about whitespace splitting -/

theorem splitWSAux_token (tok : List Char)
    (h : ∀ c ∈ tok, pyIsSpace c = false) :
    ∀ z acc, splitWSAux (tok ++ z) acc = splitWSAux z (tok.reverse ++ acc) := by
  induction tok with
  | nil => intro z acc; rfl
  | cons c rest ih =>
      intro z acc
      rw [List.cons_append, splitWSAux_cons,
        if_neg (by rw [h c (List.mem_cons_self c rest)]; simp),
        ih (fun x hx => h x (List.mem_cons_of_mem _ hx)) z (c :: acc),
        List.reverse_cons, List.append_assoc]
      rfl

theorem splitWSAux_spaces (s : List Char)
    (hs : ∀ c ∈ s, pyIsSpace c = true) :
    ∀ z, splitWSAux (s ++ z) [] = splitWSAux z [] := by
  induction s with
  | nil => intro z; rfl
  | cons c rest ih =>
      intro z
      rw [List.cons_append, splitWSAux_cons,
        if_pos (hs c (List.mem_cons_self c rest)),
        if_pos (show (List.isEmpty ([] : List Char)) = true from rfl)]
      exact ih (fun x hx => hs x (List.mem_cons_of_mem _ hx)) z

theorem splitWSAux_flush (s : List Char) (hne : s ≠ [])
    (hs : ∀ c ∈ s, pyIsSpace c = true) (z acc : List Char)
    (hacc : acc ≠ []) :
    splitWSAux (s ++ z) acc = acc.reverse :: splitWSAux z [] := by
  cases s with
  | nil => exact absurd rfl hne
  | cons c rest =>
      rw [List.cons_append, splitWSAux_cons,
        if_pos (hs c (List.mem_cons_self c rest)),
        if_neg (by rw [isEmpty_false_of_ne_nil hacc]; simp),
        splitWSAux_spaces rest
          (fun x hx => hs x (List.mem_cons_of_mem _ hx)) z]

theorem splitWS_single (i : Int) : splitWS (renderInt i) = [renderInt i] := by
  have hrev : (renderInt i).reverse ≠ [] := by
    rw [ne_eq, List.reverse_eq_nil_iff]
    exact renderInt_ne_nil i
  show splitWSAux (renderInt i) [] = [renderInt i]
  conv_lhs => rw [← List.append_nil (renderInt i)]
  rw [splitWSAux_token (renderInt i) (renderInt_not_space i) [] [],
    List.append_nil, splitWSAux_nil,
    if_neg (by rw [isEmpty_false_of_ne_nil hrev]; simp),
    List.reverse_reverse]

theorem splitWS_mixed : ∀ (ns : List Int) (seps : List (List Char)),
    (∀ s ∈ seps, s ≠ [] ∧ ∀ c ∈ s, pyIsSpace c = true) →
    ns.length ≤ seps.length + 1 →
    splitWS (mixedText ns seps) = ns.map renderInt := by
  intro ns
  induction ns with
  | nil => intro seps _ _; rfl
  | cons n rest ih =>
      intro seps hseps hlen
      cases rest with
      | nil =>
          rw [mixedText_single]
          exact splitWS_single n
      | cons m rest2 =>
          cases seps with
          | nil =>
              exfalso
              simp only [List.length_cons, List.length_nil] at hlen
              omega
          | cons s ss =>
              have hs := hseps s (List.mem_cons_self s ss)
              have hrev : (renderInt n).reverse ≠ [] := by
                rw [ne_eq, List.reverse_eq_nil_iff]
                exact renderInt_ne_nil n
              show splitWSAux (mixedText (n :: m :: rest2) (s :: ss)) [] = _
              rw [mixedText_cons2, List.append_assoc,
                splitWSAux_token (renderInt n) (renderInt_not_space n) _ [],
                List.append_nil,
                splitWSAux_flush s hs.1 hs.2 _ _ hrev,
                List.reverse_reverse, List.map_cons]
              congr 1
              exact ih ss (fun x hx => hseps x (List.mem_cons_of_mem _ hx))
                (by simp only [List.length_cons] at hlen ⊢; omega)

/-! ## Lemmas about comma replacement -/

theorem replCommaSpace_append (a b : List Char) :
    replCommaSpace (a ++ b) = replCommaSpace a ++ replCommaSpace b :=
  List.map_append _ a b

theorem replCommaSpace_id (t : List Char) (h : ∀ c ∈ t, c ≠ ',') :
    replCommaSpace t = t := by
  unfold replCommaSpace
  have hpt : ∀ c ∈ t, (if c = ',' then ' ' else c) = id c :=
    fun c hc => if_neg (h c hc)
  rw [List.map_congr_left hpt, List.map_id]

theorem replCommaSpace_all_space (s : List Char)
    (h : ∀ c ∈ s, pyIsSpace c = true ∨ c = ',') :
    ∀ c ∈ replCommaSpace s, pyIsSpace c = true := by
  intro c hc
  obtain ⟨x, hx, rfl⟩ := List.mem_map.mp hc
  by_cases hcomma : x = ','
  · rw [if_pos hcomma]; decide
  · rw [if_neg hcomma]
    rcases h x hx with hsp | hco
    · exact hsp
    · exact absurd hco hcomma

theorem replCommaSpace_ne_nil {s : List Char} (h : s ≠ []) :
    replCommaSpace s ≠ [] := by
  rw [ne_eq, replCommaSpace, List.map_eq_nil_iff]
  exact h

theorem replCommaSpace_mixed : ∀ (ns : List Int) (seps : List (List Char)),
    replCommaSpace (mixedText ns seps) =
      mixedText ns (seps.map replCommaSpace) := by
  intro ns
  induction ns with
  | nil => intro seps; rfl
  | cons n rest ih =>
      intro seps
      cases rest with
      | nil =>
          rw [mixedText_single, mixedText_single]
          exact replCommaSpace_id _ (renderInt_ne_comma n)
      | cons m rest2 =>
          cases seps with
          | nil =>
              simp only [List.map_nil]
              rw [mixedText_cons2_nil, replCommaSpace_append,
                replCommaSpace_id _ (renderInt_ne_comma n)]
              congr 1
              have hmr := ih []
              rwa [List.map_nil] at hmr
          | cons s ss =>
              rw [List.map_cons, mixedText_cons2, mixedText_cons2,
                replCommaSpace_append, replCommaSpace_append,
                replCommaSpace_id _ (renderInt_ne_comma n), ih ss]

/-! ## Parsing token lists -/

theorem intTokList_renderInts (ns : List Int) :
    intTokList (ns.map renderInt) = Except.ok ns := by
  induction ns with
  | nil => rfl
  | cons n rest ih =>
      rw [List.map_cons]
      show (do
        let i ← pyIntParse (renderInt n)
        let is ← intTokList (rest.map renderInt)
        Except.ok (i :: is)) = _
      rw [pyIntParse_renderInt, ih]
      rfl

theorem parseNumToks_renderInts (ns : List Int) :
    parseNumToks (ns.map renderInt) = some (ns.map PyNum.int) := by
  induction ns with
  | nil => rfl
  | cons n rest ih =>
      rw [List.map_cons]
      show (do
        let x ← parseNumTok (renderInt n)
        let xs ← parseNumToks (rest.map renderInt)
        some (x :: xs)) = _
      rw [parseNumTok_renderInt, ih]
      rfl

/-! ## Parsing rendered lists -/

theorem renderIntList_data (ns : List Int) :
    (renderIntList ns).data =
      '[' :: (joinSep ',' (ns.map renderInt) ++ [']']) := rfl

theorem renderInt_tokens_ne_nil (ns : List Int) :
    ∀ t ∈ ns.map renderInt, t ≠ [] := by
  intro t ht
  obtain ⟨i, _, rfl⟩ := List.mem_map.mp ht
  exact renderInt_ne_nil i

theorem renderInt_tokens_no_comma (ns : List Int) :
    ∀ t ∈ ns.map renderInt, ∀ c ∈ t, c ≠ ',' := by
  intro t ht
  obtain ⟨i, _, rfl⟩ := List.mem_map.mp ht
  exact renderInt_ne_comma i

theorem concat_ne_nil {α : Type} (l : List α) (a : α) : l ++ [a] ≠ [] := by
  intro h
  have := congrArg List.length h
  simp at this

theorem trimWS_renderIntList (ns : List Int) :
    trimWS (renderIntList ns).data = (renderIntList ns).data := by
  apply trimWS_eq_self
  · intro c hc
    rw [renderIntList_data] at hc
    injection hc with hc
    subst hc
    decide
  · intro c hc
    rw [renderIntList_data,
      getLast?_cons_ne_nil _ (concat_ne_nil _ _),
      List.getLast?_concat] at hc
    injection hc with hc
    subst hc
    decide

theorem trimWS_joinSep_renderInts (n : Int) (rest : List Int) :
    trimWS (joinSep ',' (renderInt n :: rest.map renderInt)) =
      joinSep ',' (renderInt n :: rest.map renderInt) := by
  apply trimWS_eq_self
  · intro c hc
    rw [joinSep_head? ',' _ _ (renderInt_ne_nil n)] at hc
    exact renderInt_not_space n c (mem_of_head? hc)
  · intro c hc
    obtain ⟨tk, htk, heq⟩ := joinSep_getLast?_mem ','
      (renderInt n :: rest.map renderInt) (List.cons_ne_nil _ _)
      (by
        intro x hx
        rcases List.mem_cons.mp hx with rfl | hx
        · exact renderInt_ne_nil n
        · exact renderInt_tokens_ne_nil rest x hx)
    rw [heq] at hc
    rcases List.mem_cons.mp htk with rfl | htk
    · exact renderInt_not_space n c (mem_of_getLast? hc)
    · obtain ⟨i, _, rfl⟩ := List.mem_map.mp htk
      exact renderInt_not_space i c (mem_of_getLast? hc)

theorem parseNumList_renderIntList (ns : List Int) :
    parseNumList (renderIntList ns).data = some (ns.map PyNum.int) := by
  cases ns with
  | nil => decide
  | cons n rest =>
      rw [renderIntList_data, parseNumList_cons, if_pos rfl,
        if_pos (List.getLast?_concat _), List.dropLast_concat,
        List.map_cons]
      have hne : joinSep ',' (renderInt n :: rest.map renderInt) ≠ [] :=
        joinSep_ne_nil ',' _ _ (renderInt_ne_nil n)
      rw [if_neg (by
        rw [trimWS_joinSep_renderInts, isEmpty_false_of_ne_nil hne]
        simp)]
      rw [joinSep_split ',' _ (List.cons_ne_nil _ _) (by
        intro t ht c hc
        rcases List.mem_cons.mp ht with rfl | ht
        · exact renderInt_ne_comma n c hc
        · exact renderInt_tokens_no_comma rest t ht c hc)]
      have := parseNumToks_renderInts (n :: rest)
      rwa [List.map_cons, List.map_cons] at this

theorem jsonParse_renderIntList (ns : List Int) :
    jsonParse (renderIntList ns).data =
      Except.ok (.list (ns.map PyNum.int)) := by
  unfold jsonParse
  rw [trimWS_renderIntList, parseNumList_renderIntList]

theorem literalEval_renderIntList (ns : List Int) :
    literalEval (renderIntList ns).data =
      Except.ok (.list (ns.map PyNum.int)) := by
  unfold literalEval
  rw [trimWS_renderIntList, parseNumList_renderIntList]

/-! ## Unfolding load_list -/

theorem load_list_file (fs : String → Option String) (source raw : String)
    (h : fs source = some raw) :
    load_list fs source =
      load_from_file (pathSuffix source) (trimWS raw.data) := by
  unfold load_list
  rw [h]

theorem load_list_nofile (fs : String → Option String) (source : String)
    (h : fs source = none) :
    load_list fs source = literalEval source.data := by
  unfold load_list
  rw [h]

/-! ## The CSV branch on well-formed cells -/

theorem csv_cells_parse : ∀ (cells : List CsvCell),
    (∀ cell ∈ cells, cell.wf = true) →
    intTokList ((cells.map CsvCell.text).filter
        (fun x => !(trimWS x).isEmpty)) =
      Except.ok (cells.filterMap CsvCell.int?) := by
  intro cells
  induction cells with
  | nil => intro _; rfl
  | cons cell rest ih =>
      intro hwf
      have hcell := hwf cell (List.mem_cons_self cell rest)
      have hrest := fun x hx => hwf x (List.mem_cons_of_mem _ hx)
      cases cell with
      | blank ws =>
          have hws : ∀ c ∈ ws, pyIsSpace c = true := by
            intro c hc
            exact List.all_eq_true.mp hcell c hc
          rw [List.map_cons, List.filter_cons]
          have hfalse : (!(trimWS (CsvCell.text (CsvCell.blank ws))).isEmpty)
              = false := by
            show (!(trimWS ws).isEmpty) = false
            rw [trimWS_all_space hws]
            rfl
          rw [if_neg (by rw [hfalse]; simp),
            List.filterMap_cons_none (by rfl), ih hrest]
      | val pad n =>
          have hpad : ∀ c ∈ pad, pyIsSpace c = true := by
            intro c hc
            exact List.all_eq_true.mp hcell c hc
          have htrim : trimWS (CsvCell.text (CsvCell.val pad n)) =
              renderInt n := by
            show trimWS (pad ++ renderInt n) = renderInt n
            exact trimWS_pad_renderInt hpad n
          have htrue : (!(trimWS (CsvCell.text (CsvCell.val pad n))).isEmpty)
              = true := by
            rw [htrim, isEmpty_false_of_ne_nil (renderInt_ne_nil n)]
            rfl
          rw [List.map_cons, List.filter_cons, if_pos htrue]
          show (do
            let i ← pyIntParse (CsvCell.text (CsvCell.val pad n))
            let is ← intTokList ((rest.map CsvCell.text).filter
              (fun x => !(trimWS x).isEmpty))
            Except.ok (i :: is)) = _
          rw [show CsvCell.text (CsvCell.val pad n) = pad ++ renderInt n
              from rfl,
            pyIntParse_pad_renderInt hpad n, ih hrest,
            List.filterMap_cons_some (by rfl)]
          rfl

/-! ## Claims about the Input Loader and the CLI (C5 - C10) -/

/-- C5: loading a JSON file whose contents are the JSON array of a list
of 32 integers produces the same integer sequence - and hence the same
byte sequence after encoding - as passing the equivalent literal list
string directly as the source argument. -/
theorem c5_json_vs_literal (ns : List Int) (h32 : ns.length = 32)
    (p : String) (fs1 : String → Option String) (raw : String)
    (hsuf : pathSuffix p = ".json") (hfs : fs1 p = some raw)
    (htrim : trimWS raw.data = (renderIntList ns).data)
    (fs2 : String → Option String)
    (hnf : fs2 (renderIntList ns) = none) :
    load_list fs1 p = Except.ok (.list (ns.map PyNum.int)) ∧
    load_list fs2 (renderIntList ns) =
      Except.ok (.list (ns.map PyNum.int)) ∧
    load_list fs1 p = load_list fs2 (renderIntList ns) := by
  have h1 : load_list fs1 p = Except.ok (.list (ns.map PyNum.int)) := by
    rw [load_list_file fs1 p raw hfs, hsuf, htrim]
    unfold load_from_file
    rw [if_pos rfl]
    exact jsonParse_renderIntList ns
  have h2 : load_list fs2 (renderIntList ns) =
      Except.ok (.list (ns.map PyNum.int)) := by
    rw [load_list_nofile fs2 _ hnf]
    exact literalEval_renderIntList ns
  exact ⟨h1, h2, by rw [h1, h2]⟩

theorem c5_json_vs_literal_witness :
    ((List.replicate 32 (0 : Int)).length = 32 ∧
      pathSuffix "key.json" = ".json" ∧
      (fun q : String => if q = "key.json"
          then some (renderIntList (List.replicate 32 (0 : Int)))
          else none) "key.json" =
        some (renderIntList (List.replicate 32 (0 : Int))) ∧
      trimWS (renderIntList (List.replicate 32 (0 : Int))).data =
        (renderIntList (List.replicate 32 (0 : Int))).data ∧
      (fun _ : String => (none : Option String))
          (renderIntList (List.replicate 32 (0 : Int))) = none) ∧
    (load_list
        (fun q : String => if q = "key.json"
          then some (renderIntList (List.replicate 32 (0 : Int)))
          else none) "key.json" =
      Except.ok (.list ((List.replicate 32 (0 : Int)).map PyNum.int)) ∧
    load_list (fun _ : String => (none : Option String))
        (renderIntList (List.replicate 32 (0 : Int))) =
      Except.ok (.list ((List.replicate 32 (0 : Int)).map PyNum.int)) ∧
    load_list
        (fun q : String => if q = "key.json"
          then some (renderIntList (List.replicate 32 (0 : Int)))
          else none) "key.json" =
      load_list (fun _ : String => (none : Option String))
        (renderIntList (List.replicate 32 (0 : Int)))) :=
  ⟨⟨by decide, by decide, by decide, by decide, rfl⟩,
    c5_json_vs_literal (List.replicate 32 (0 : Int)) (by decide)
      "key.json" _ (renderIntList (List.replicate 32 (0 : Int)))
      (by decide) (by decide) (by decide) _ rfl⟩

/-- C6: for every existing `.csv` file, `load_list` splits the stripped
contents on commas, drops the blank cells, strips each remaining cell
and parses it as an integer; in particular contents `1,2,3, 4` (with
stray whitespace) yield the sequence [1,2,3,4]. -/
theorem c6_csv_loader (cells : List CsvCell)
    (hwf : ∀ cell ∈ cells, cell.wf = true)
    (fs : String → Option String) (p raw : String)
    (hsuf : pathSuffix p = ".csv") (hfs : fs p = some raw)
    (htrim : trimWS raw.data = csvText cells) :
    load_list fs p =
      Except.ok (.list ((cells.filterMap CsvCell.int?).map PyNum.int)) := by
  rw [load_list_file fs p raw hfs, hsuf, htrim]
  unfold load_from_file
  rw [if_neg (by decide), if_pos rfl]
  cases cells with
  | nil => decide
  | cons cell crest =>
      have hsplit : splitOnChar ',' (csvText (cell :: crest)) =
          (cell :: crest).map CsvCell.text := by
        unfold csvText
        apply joinSep_split
        · rw [List.map_cons]
          exact List.cons_ne_nil _ _
        · intro t ht c hc
          obtain ⟨cl, hcl, rfl⟩ := List.mem_map.mp ht
          have hclwf := hwf cl hcl
          cases cl with
          | blank ws =>
              exact space_ne_comma (List.all_eq_true.mp hclwf c hc)
          | val pad i =>
              rcases List.mem_append.mp hc with hpad | hri
              · exact space_ne_comma (List.all_eq_true.mp hclwf c hpad)
              · exact renderInt_ne_comma i c hri
      rw [hsplit, csv_cells_parse _ hwf]
      rfl

theorem c6_csv_loader_witness :
    ((∀ cell ∈ [CsvCell.val [] 1, CsvCell.val [] 2, CsvCell.val [] 3,
        CsvCell.val [' '] 4], cell.wf = true) ∧
      pathSuffix "key.csv" = ".csv" ∧
      (fun q : String => if q = "key.csv" then some "1,2,3, 4" else none)
          "key.csv" = some "1,2,3, 4" ∧
      trimWS ("1,2,3, 4" : String).data =
        csvText [CsvCell.val [] 1, CsvCell.val [] 2, CsvCell.val [] 3,
          CsvCell.val [' '] 4]) ∧
    load_list
        (fun q : String => if q = "key.csv" then some "1,2,3, 4" else none)
        "key.csv" =
      Except.ok (.list [PyNum.int 1, PyNum.int 2, PyNum.int 3,
        PyNum.int 4]) :=
  ⟨⟨by decide, by decide, by decide, by decide⟩,
    c6_csv_loader [CsvCell.val [] 1, CsvCell.val [] 2, CsvCell.val [] 3,
        CsvCell.val [' '] 4] (by decide)
      _ "key.csv" "1,2,3, 4" (by decide) (by decide) (by decide)⟩

/-- C7: for every existing file whose suffix is neither `.json` nor
`.csv`, `load_list` splits the stripped contents on any mixture of
whitespace and commas and parses each token as an integer, preserving
order. -/
theorem c7_txt_loader (ns : List Int) (seps : List (List Char))
    (hseps : ∀ s ∈ seps, s ≠ [] ∧ ∀ c ∈ s, pyIsSpace c = true ∨ c = ',')
    (hlen : ns.length ≤ seps.length + 1)
    (fs : String → Option String) (p raw : String)
    (hjson : pathSuffix p ≠ ".json") (hcsv : pathSuffix p ≠ ".csv")
    (hfs : fs p = some raw)
    (htrim : trimWS raw.data = mixedText ns seps) :
    load_list fs p = Except.ok (.list (ns.map PyNum.int)) := by
  rw [load_list_file fs p raw hfs, htrim]
  unfold load_from_file
  rw [if_neg hjson, if_neg hcsv, replCommaSpace_mixed,
    splitWS_mixed ns (seps.map replCommaSpace)
      (by
        intro s hs
        obtain ⟨s0, hs0, rfl⟩ := List.mem_map.mp hs
        exact ⟨replCommaSpace_ne_nil (hseps s0 hs0).1,
          replCommaSpace_all_space s0 (hseps s0 hs0).2⟩)
      (by rw [List.length_map]; exact hlen),
    intTokList_renderInts]
  rfl

theorem c7_txt_loader_witness :
    ((∀ s ∈ [[' '], [','], [',', ' ']],
        s ≠ [] ∧ ∀ c ∈ s, pyIsSpace c = true ∨ c = ',') ∧
      ([1, 2, 3, 4] : List Int).length ≤
        ([[' '], [','], [',', ' ']] : List (List Char)).length + 1 ∧
      pathSuffix "key.txt" ≠ ".json" ∧
      pathSuffix "key.txt" ≠ ".csv" ∧
      (fun q : String => if q = "key.txt" then some "1 2,3, 4" else none)
          "key.txt" = some "1 2,3, 4" ∧
      trimWS ("1 2,3, 4" : String).data =
        mixedText [1, 2, 3, 4] [[' '], [','], [',', ' ']]) ∧
    load_list
        (fun q : String => if q = "key.txt" then some "1 2,3, 4" else none)
        "key.txt" =
      Except.ok (.list [PyNum.int 1, PyNum.int 2, PyNum.int 3,
        PyNum.int 4]) :=
  ⟨⟨by decide, by decide, by decide, by decide, by decide, by decide⟩,
    c7_txt_loader [1, 2, 3, 4] [[' '], [','], [',', ' ']] (by decide)
      (by decide) _ "key.txt" "1 2,3, 4" (by decide) (by decide)
      (by decide) (by decide)⟩

/-- C8 counterexample: the source string `5` does not denote an existing
file and is not a list literal, yet `load_list` succeeds on it (with the
bare integer 5), so the loader does not fail on every non-list input. -/
theorem c8_counterexample :
    (fun _ : String => (none : Option String)) "5" = none ∧
    load_list (fun _ : String => (none : Option String)) "5" =
      Except.ok (.num (.int 5)) :=
  ⟨rfl, by decide⟩

/-- C8 (amended): for a source string that is not an existing path,
`load_list` parses it as a literal expression; a literal list of
integers yields that list, a valid non-list literal such as `5` is
accepted (not rejected) and returned as a bare number, and a string
that is not a valid literal at all fails. -/
theorem c8_literal_loader (ns : List Int) (fs : String → Option String)
    (h : fs (renderIntList ns) = none) :
    load_list fs (renderIntList ns) =
      Except.ok (.list (ns.map PyNum.int)) ∧
    load_list (fun _ : String => (none : Option String)) "5" =
      Except.ok (.num (.int 5)) ∧
    load_list (fun _ : String => (none : Option String)) "][" =
      Except.error "malformed node or string" := by
  refine ⟨?_, by decide, by decide⟩
  rw [load_list_nofile fs _ h]
  exact literalEval_renderIntList ns

theorem c8_literal_loader_witness :
    ((fun _ : String => (none : Option String))
        (renderIntList [1, 2, 3]) = none) ∧
    (load_list (fun _ : String => (none : Option String))
        (renderIntList [1, 2, 3]) =
      Except.ok (.list ([1, 2, 3].map PyNum.int)) ∧
    load_list (fun _ : String => (none : Option String)) "5" =
      Except.ok (.num (.int 5)) ∧
    load_list (fun _ : String => (none : Option String)) "][" =
      Except.error "malformed node or string") :=
  ⟨rfl, c8_literal_loader [1, 2, 3] (fun _ => none) rfl⟩

/-- C9: every invocation either succeeds, printing exactly the base58
string and a newline on stdout with exit code 0 and nothing on stderr,
or fails, printing exactly one `Error: <description>` line on stderr
with exit code 1 and nothing on stdout. -/
theorem c9_top_level (fs : String → Option String) (source : String) :
    (∃ b58, pipeline fs source = Except.ok b58 ∧
      main_run fs source = (0, b58 ++ "\n", "")) ∨
    (∃ e, pipeline fs source = Except.error e ∧
      main_run fs source = (1, "", "Error: " ++ e ++ "\n")) := by
  cases h : pipeline fs source with
  | ok b =>
      left
      refine ⟨b, rfl, ?_⟩
      unfold main_run
      rw [h]
  | error e =>
      right
      refine ⟨e, rfl, ?_⟩
      unfold main_run
      rw [h]

/-- C10: the JSON path performs no element-type check: a 32-element JSON
array holding the non-integer number 1.5 loads successfully, passes both
validation checks of `list_to_base58` (length 32, every element within
[0,255]), and then fails at the byte-conversion step with an error that
is neither the length-mismatch nor the range-violation message. -/
theorem c10_json_float :
    load_list
        (fun p : String => if p = "key.json"
          then some "[1.5,0,0,0,0,0,0,0,0,0,0,0,0,0,0,0,0,0,0,0,0,0,0,0,0,0,0,0,0,0,0,0]" else none) "key.json" =
      Except.ok (.list (PyNum.float 15 1 ::
        List.replicate 31 (PyNum.int 0))) ∧
    (PyNum.float 15 1 :: List.replicate 31 (PyNum.int 0)).length = 32 ∧
    ((PyNum.float 15 1 :: List.replicate 31 (PyNum.int 0)).any
        PyNum.outOfRange) = false ∧
    list_to_base58P (.list (PyNum.float 15 1 ::
        List.replicate 31 (PyNum.int 0))) =
      Except.error "float object cannot be interpreted as an integer" ∧
    ("float object cannot be interpreted as an integer" ≠
      "All list items must be in 0-255 range") ∧
    ("float object cannot be interpreted as an integer" ≠
      "Expected 32 or 64 integers, got 32") :=
  ⟨by decide, by decide, by decide, by decide, by decide, by decide⟩

end ListToBase58
